import Mathlib

/-!
Verification of the `cache-db` repository: a generic in-memory key-value
store with optional per-key TTL and gob-based persistence
(`database/database.go`, `model/model.go`).

Shallow embedding conventions:
* `time.Time` is modelled as `Nat` (an absolute instant); the Go zero
  `time.Time` (the "no expiration" sentinel, tested with `IsZero`) is `0`.
  Real clock readings are strictly positive, and the code only ever
  compares instants with `Before`/`After`/`IsZero`, so this is faithful.
* `time.Duration` is modelled as `Int` (it is a signed integer count of
  nanoseconds in Go).
* Go's built-in `map` is modelled as an association list with the usual
  lookup/insert/erase operations; well-formed map states have no duplicate
  keys (`wfKeys`), which every operation preserves.
* The filesystem is modelled as an association list from resolved paths to
  file contents.  `encoding/gob` encode/decode is modelled as storing the
  `Persisted` record value itself: gob round-trips every field of the
  record (`time.Time` has a faithful GobEncode/GobDecode pair, and a field
  omitted because it is zero decodes to the same zero in a fresh value).
  A file that is not a well-formed encoding is `File.corrupt`.
* `path/filepath.Join`/`Clean` are modelled on paths represented as a
  rootedness flag plus the list of raw slash-separated segments, with
  Go's lexical cleaning algorithm (drop empty and `.` segments, make `..`
  pop the previous segment, keep leading `..`s of a relative path, drop
  `..` at the root of a rooted path).
* Sequential semantics: each operation takes the instant `now` at which it
  runs as an explicit parameter (the code reads `time.Now()`); the
  mutex-protected critical sections of the Go code execute atomically and
  in order in a single-threaded run, which is what the claims quantify
  over.
-/

namespace CacheDb

/-- An absolute instant (`time.Time`); `0` is the Go zero time. -/
abbrev Time := Nat

/-- A signed duration in nanoseconds (`time.Duration`). -/
abbrev Duration := Int

/-- `time.Time.IsZero`: the "no expiration" sentinel test. -/
def Time.IsZero (t : Time) : Bool := t == 0

/-- `a.Before(b)` on instants. -/
def Time.Before (a b : Time) : Bool := decide (a < b)

/-- `a.After(b)` on instants. -/
def Time.After (a b : Time) : Bool := decide (b < a)

/-- `t.Add(d)` on an instant and a duration (only ever used with `d > 0`). -/
def Time.Add (t : Time) (d : Duration) : Time := ((t : Int) + d).toNat

/-- `model.Entry[V]`: a stored value with an optional absolute expiration
instant (`ExpiresAt = 0` means no expiration). -/
structure Entry (V : Type) where
  Value : V
  ExpiresAt : Time
deriving DecidableEq

/-- The expiration test the code applies (`CleanExpired`'s condition, and the
delete branch of `Get`): the expiration is set and `now` is strictly after
it. -/
def Entry.expired (e : Entry V) (now : Time) : Bool :=
  !(Time.IsZero e.ExpiresAt) && Time.After now e.ExpiresAt

/-! ### Association-list model of Go maps (and of the directory of files) -/

/-- Lookup in an association-list map (`m[k]`). -/
def mapLookup [DecidableEq A] (l : List (A × B)) (a : A) : Option B :=
  (l.find? (fun p => p.1 == a)).map (fun p => p.2)

/-- Removal from an association-list map (`delete(m, k)`). -/
def mapErase [DecidableEq A] (l : List (A × B)) (a : A) : List (A × B) :=
  l.filter (fun p => !(p.1 == a))

/-- Insertion into an association-list map (`m[k] = v`): one binding per
key. -/
def mapInsert [DecidableEq A] (l : List (A × B)) (a : A) (b : B) : List (A × B) :=
  (a, b) :: mapErase l a

/-- Well-formedness of an association-list map state: keys are distinct,
as they are in a Go map. -/
def wfKeys (l : List (A × B)) : Prop := (l.map Prod.fst).Nodup

instance wfKeysDecidable [DecidableEq A] (l : List (A × B)) :
    Decidable (wfKeys l) :=
  List.nodupDecidable (l.map Prod.fst)

/-! ### `path/filepath` model -/

/-- One step of Go `filepath.Clean`'s segment processing, with the output
kept in reverse order: empty and `.` segments are dropped, `..` pops the
previous real segment, stays as `..` after a leading run of `..`s in a
relative path, and is dropped at the root of a rooted path. -/
def cleanPush (rooted : Bool) (out : List String) (s : String) : List String :=
  if s = "" ∨ s = "." then out
  else if s = ".." then
    match out with
    | [] => if rooted then [] else [".."]
    | t :: ts => if t = ".." then ".." :: t :: ts else ts
  else s :: out

/-- The segments of `filepath.Clean` applied to a path with the given
rootedness and raw segments. -/
def cleanSegs (rooted : Bool) (segs : List String) : List String :=
  (segs.foldl (cleanPush rooted) []).reverse

/-- A slash-separated path: whether it is rooted (absolute), plus its raw
segments. -/
structure GoPath where
  rooted : Bool
  segs : List String
deriving DecidableEq

/-- `filepath.Clean`. -/
def GoPath.clean (p : GoPath) : GoPath := ⟨p.rooted, cleanSegs p.rooted p.segs⟩

/-- `filepath.Join(a, b)`: concatenate the segments (Go joins the raw
strings with a slash, so the second argument's own leading slash is lost)
and clean the result. -/
def goJoin (a b : GoPath) : GoPath := GoPath.clean ⟨a.rooted, a.segs ++ b.segs⟩

/-- `Database.getPath`: `filepath.Clean(filepath.Join(basePath, fileName))`
(`goJoin` already cleans, and `Clean` is idempotent). -/
def getPath (basePath fileName : GoPath) : GoPath := goJoin basePath fileName

/-- `p` lies under the (cleaned) base directory: same rootedness and the
base's cleaned segments are a prefix of `p`'s. -/
def underBase (base p : GoPath) : Bool :=
  (base.clean.rooted == p.rooted) && base.clean.segs.isPrefixOf p.segs

/-! ### The store -/

/-- `database.Database[K, V]` (the `sync.RWMutex` guards the two mutable
fields; in the sequential model operations on them are atomic). -/
structure Database (K V : Type) where
  data : List (K × Entry V)
  defaultTTL : Duration
  basePath : GoPath
deriving DecidableEq

/-- `database.NewDatabase`. -/
def NewDatabase (K V : Type) (defaultTTL : Duration) (basePath : GoPath) :
    Database K V :=
  ⟨[], defaultTTL, basePath⟩

/-- `Database.Set`: insert or replace, applying the default TTL only when it
is positive; otherwise the expiration stays the zero sentinel. -/
def Database.Set [DecidableEq K] (db : Database K V) (key : K) (value : V)
    (now : Time) : Database K V :=
  let exp : Time := if db.defaultTTL > 0 then Time.Add now db.defaultTTL else 0
  { db with data := mapInsert db.data key ⟨value, exp⟩ }

/-- `Database.SetWithTTL`: insert or replace with the given TTL; `ttl ≤ 0`
means the entry never expires. -/
def Database.SetWithTTL [DecidableEq K] (db : Database K V) (key : K) (value : V)
    (ttl : Duration) (now : Time) : Database K V :=
  let exp : Time := if ttl > 0 then Time.Add now ttl else 0
  { db with data := mapInsert db.data key ⟨value, exp⟩ }

/-- Result of `Database.Get`: the returned value, the found flag, and the
store state after the call (the call may delete an expired entry). -/
structure GetResult (K V : Type) where
  value : V
  found : Bool
  db : Database K V
deriving DecidableEq

/-- `Database.Get`: fast path under the read lock (zero expiration or not yet
reached means a hit); otherwise re-load the entry under the write lock,
delete it only if it is still present and strictly expired, and otherwise
return it as a hit. -/
def Database.Get [DecidableEq K] [Inhabited V] (db : Database K V) (key : K)
    (now : Time) : GetResult K V :=
  match mapLookup db.data key with
  | none => ⟨default, false, db⟩
  | some e =>
    if Time.IsZero e.ExpiresAt || Time.Before now e.ExpiresAt then
      ⟨e.Value, true, db⟩
    else
      match mapLookup db.data key with
      | some e2 =>
        if !(Time.IsZero e2.ExpiresAt) && Time.After now e2.ExpiresAt then
          ⟨default, false, { db with data := mapErase db.data key }⟩
        else
          ⟨e2.Value, true, db⟩
      | none => ⟨default, false, db⟩

/-- The loop body of `Database.CleanExpired`: walk the entries, delete every
expired one, count the deletions. -/
def cleanExpiredLoop (now : Time) : List (K × Entry V) → Nat × List (K × Entry V)
  | [] => (0, [])
  | p :: rest =>
    let r := cleanExpiredLoop now rest
    if Entry.expired p.2 now then (r.1 + 1, r.2) else (r.1, p :: r.2)

/-- `Database.CleanExpired`: remove all expired entries, return how many were
removed. -/
def Database.CleanExpired (db : Database K V) (now : Time) :
    Nat × Database K V :=
  let r := cleanExpiredLoop now db.data
  (r.1, { db with data := r.2 })

/-! ### Persistence -/

/-- `model.Persisted[K, V]`: the on-disk record — format version, default
TTL, and the full data map. -/
structure Persisted (K V : Type) where
  Version : Int
  DefaultTTL : Duration
  Data : List (K × Entry V)
deriving DecidableEq

/-- Contents of one file: either a well-formed gob encoding of a
`Persisted` record, or bytes that fail to decode (this also stands for a
freshly created, not yet fully written temporary file). -/
inductive File (K V : Type) where
  | corrupt : File K V
  | record : Persisted K V → File K V
deriving DecidableEq

/-- The filesystem: resolved paths mapped to file contents. -/
abbrev World (K V : Type) := List (GoPath × File K V)

/-- The error cases of `Database.Load`. -/
inductive LoadErr where
  | openFile : LoadErr
  | decodeGob : LoadErr
deriving DecidableEq

/-- The error cases of `Database.Persist`, one per fallible step. -/
inductive PersistErr where
  | ensureDir : PersistErr
  | createTemp : PersistErr
  | encodeGob : PersistErr
  | closeTemp : PersistErr
  | renameTemp : PersistErr
deriving DecidableEq

/-- Which of `Persist`'s fallible steps fail in a given run (the
environment's choice; `os.MkdirAll`, `os.CreateTemp`, `Encode`, `Close`,
`os.Rename` can each fail). -/
structure Faults where
  ensureDirFails : Bool
  createTempFails : Bool
  encodeFails : Bool
  closeFails : Bool
  renameFails : Bool
deriving DecidableEq

/-- The fault-free run. -/
def noFaults : Faults := ⟨false, false, false, false, false⟩

/-- `Database.Load`: resolve the path, open it (missing file is an open
error), decode (corrupt contents are a decode error, and the in-memory
state is untouched), then swap both the data map and the default TTL to the
decoded values.  Returns the error (if any) and the state of the receiver
after the call. -/
def Database.Load [DecidableEq K] (db : Database K V) (w : World K V)
    (filename : GoPath) : Option LoadErr × Database K V :=
  match mapLookup w (getPath db.basePath filename) with
  | none => (some LoadErr.openFile, db)
  | some File.corrupt => (some LoadErr.decodeGob, db)
  | some (File.record p) =>
    (none, { db with data := p.Data, defaultTTL := p.DefaultTTL })

/-- `Database.Persist`: snapshot `{Version = 1, DefaultTTL, Data}` under the
read lock, ensure the directory, create a temporary file `tmpName` in it,
encode into it, close it, and rename it over the resolved target path.  On
a failure at encode, close, or rename the temporary file is removed; the
receiver's fields are never written.  Returns the error (if any), the state
of the receiver after the call, and the resulting filesystem. -/
def Database.Persist [DecidableEq K] (db : Database K V) (w : World K V)
    (fl : Faults) (filename tmpName : GoPath) :
    Option PersistErr × Database K V × World K V :=
  let snap : Persisted K V := ⟨1, db.defaultTTL, db.data⟩
  let path := getPath db.basePath filename
  if fl.ensureDirFails then (some PersistErr.ensureDir, db, w)
  else if fl.createTempFails then (some PersistErr.createTemp, db, w)
  else
    let w1 := mapInsert w tmpName File.corrupt
    if fl.encodeFails then (some PersistErr.encodeGob, db, mapErase w1 tmpName)
    else
      let w2 := mapInsert w1 tmpName (File.record snap)
      if fl.closeFails then (some PersistErr.closeTemp, db, mapErase w2 tmpName)
      else if fl.renameFails then
        (some PersistErr.renameTemp, db, mapErase w2 tmpName)
      else (none, db, mapInsert (mapErase w2 tmpName) path (File.record snap))

/-- `Database.DeleteFile`: remove the resolved file; a missing file is not
an error (idempotent). -/
def Database.DeleteFile [DecidableEq K] (db : Database K V) (w : World K V)
    (filename : GoPath) : World K V :=
  mapErase w (getPath db.basePath filename)

/-! ### Association-list map lemmas -/

theorem mapLookup_cons [DecidableEq A] (p : A × B) (l : List (A × B)) (a : A) :
    mapLookup (p :: l) a = if p.1 = a then some p.2 else mapLookup l a := by
  by_cases h : p.1 = a
  · simp [mapLookup, List.find?_cons_of_pos, h]
  · simp [mapLookup, List.find?_cons_of_neg, h]

theorem mapErase_cons [DecidableEq A] (p : A × B) (l : List (A × B)) (a : A) :
    mapErase (p :: l) a =
      if p.1 = a then mapErase l a else p :: mapErase l a := by
  by_cases h : p.1 = a <;> simp [mapErase, List.filter_cons, h]

/-- Looking up `a` after erasing `a'`: `none` for `a = a'`, unchanged
otherwise. -/
theorem mapLookup_erase [DecidableEq A] (l : List (A × B)) (a a' : A) :
    mapLookup (mapErase l a') a = if a = a' then none else mapLookup l a := by
  induction l with
  | nil => by_cases h : a = a' <;> simp [mapErase, mapLookup, h]
  | cons p rest ih =>
    rw [mapErase_cons]
    by_cases hp : p.1 = a'
    · rw [if_pos hp, ih, mapLookup_cons]
      by_cases h : a = a'
      · simp [h]
      · have hpa : ¬ p.1 = a := fun hh => h (hh.symm.trans hp)
        simp [h, hpa]
    · rw [if_neg hp, mapLookup_cons, mapLookup_cons, ih]
      by_cases hpa : p.1 = a
      · have : ¬ a = a' := fun hh => hp (hpa.trans hh)
        simp [hpa, this]
      · simp [hpa]

/-- Looking up `a` after inserting at `a'`. -/
theorem mapLookup_insert [DecidableEq A] (l : List (A × B)) (a a' : A) (b : B) :
    mapLookup (mapInsert l a' b) a =
      if a = a' then some b else mapLookup l a := by
  rw [mapInsert, mapLookup_cons, mapLookup_erase]
  by_cases h : a = a'
  · simp [h]
  · have h2 : ¬ a' = a := fun hh => h hh.symm
    simp [h, h2]

theorem mapLookup_erase_self [DecidableEq A] (l : List (A × B)) (a : A) :
    mapLookup (mapErase l a) a = none := by
  simp [mapLookup_erase]

/-- Erasing a key that is not bound changes nothing. -/
theorem mapErase_of_lookup_none [DecidableEq A] (l : List (A × B)) (a : A)
    (h : mapLookup l a = none) : mapErase l a = l := by
  induction l with
  | nil => rfl
  | cons p rest ih =>
    rw [mapLookup_cons] at h
    by_cases hp : p.1 = a
    · simp [hp] at h
    · rw [mapErase_cons, if_neg hp, ih (by simpa [hp] using h)]

/-- Erasing the key just inserted erases exactly the original binding. -/
theorem mapErase_insert_self [DecidableEq A] (l : List (A × B)) (a : A) (b : B) :
    mapErase (mapInsert l a b) a = mapErase l a := by
  rw [mapInsert, mapErase_cons, if_pos rfl]
  unfold mapErase
  rw [List.filter_filter]
  apply List.filter_congr
  intro x _
  simp

/-- A key absent from the whole map is absent from any filtered version. -/
theorem mapLookup_filter_none [DecidableEq A] (l : List (A × B))
    (q : A × B → Bool) (a : A) (h : mapLookup l a = none) :
    mapLookup (l.filter q) a = none := by
  induction l with
  | nil => rfl
  | cons p rest ih =>
    rw [mapLookup_cons] at h
    by_cases hp : p.1 = a
    · simp [hp] at h
    · rw [List.filter_cons]
      have hrest := ih (by simpa [hp] using h)
      by_cases hq : q p = true
      · rw [if_pos hq, mapLookup_cons, if_neg hp]
        exact hrest
      · rw [if_neg hq]
        exact hrest

/-- On a well-formed map, filtering acts pointwise on the binding of each
key. -/
theorem mapLookup_filter [DecidableEq A] (l : List (A × B)) (q : A × B → Bool)
    (a : A) (hwf : wfKeys l) :
    mapLookup (l.filter q) a =
      match mapLookup l a with
      | some b => if q (a, b) then some b else none
      | none => none := by
  induction l with
  | nil => rfl
  | cons p rest ih =>
    obtain ⟨p1, p2⟩ := p
    rw [wfKeys, List.map_cons, List.nodup_cons] at hwf
    obtain ⟨hnotin, hrest⟩ := hwf
    rw [List.filter_cons]
    by_cases hp : p1 = a
    · subst hp
      have hnone : mapLookup rest p1 = none := by
        rw [mapLookup, List.find?_eq_none.mpr]
        · rfl
        · intro x hx
          simp only [beq_iff_eq]
          intro hxa
          have hmem : x.1 ∈ rest.map Prod.fst := List.mem_map_of_mem Prod.fst hx
          rw [hxa] at hmem
          exact hnotin hmem
      by_cases hq : q (p1, p2) = true
      · simp [hq, mapLookup_cons]
      · simp [hq, mapLookup_cons, mapLookup_filter_none rest q p1 hnone]
    · by_cases hq : q (p1, p2) = true
      · simp [hq, mapLookup_cons, hp, ih hrest]
      · simp [hq, mapLookup_cons, hp, ih hrest]

/-- A key that is not among the mapped first components looks up to
`none`. -/
theorem mapLookup_eq_none_of_not_mem [DecidableEq A] (l : List (A × B)) (a : A)
    (h : a ∉ l.map Prod.fst) : mapLookup l a = none := by
  rw [mapLookup, List.find?_eq_none.mpr]
  · rfl
  · intro x hx
    simp only [beq_iff_eq]
    intro hxa
    have hmem : x.1 ∈ l.map Prod.fst := List.mem_map_of_mem Prod.fst hx
    rw [hxa] at hmem
    exact h hmem

/-- On a well-formed map, erasing a key whose binding does not match `q`
does not change the `q`-count. -/
theorem countP_mapErase [DecidableEq A] (l : List (A × B)) (a : A) (b : B)
    (q : A × B → Bool) (hwf : wfKeys l) (hl : mapLookup l a = some b)
    (hq : q (a, b) = false) :
    l.countP q = (mapErase l a).countP q := by
  induction l with
  | nil => simp [mapLookup] at hl
  | cons p rest ih =>
    obtain ⟨p1, p2⟩ := p
    rw [wfKeys, List.map_cons, List.nodup_cons] at hwf
    obtain ⟨hnotin, hrest⟩ := hwf
    rw [mapLookup_cons] at hl
    rw [mapErase_cons]
    by_cases hp : p1 = a
    · subst hp
      rw [if_pos rfl] at hl ⊢
      have hb : p2 = b := by simpa using hl
      subst hb
      rw [mapErase_of_lookup_none rest p1 (mapLookup_eq_none_of_not_mem rest p1 hnotin)]
      rw [List.countP_cons]
      simp [hq]
    · rw [if_neg hp] at hl ⊢
      rw [List.countP_cons, List.countP_cons, ih hrest hl]

/-- The `CleanExpired` loop deletes exactly the expired entries and counts
one per deletion. -/
theorem cleanExpiredLoop_eq (now : Time) (l : List (K × Entry V)) :
    cleanExpiredLoop now l =
      (l.countP (fun p => Entry.expired p.2 now),
       l.filter (fun p => !(Entry.expired p.2 now))) := by
  induction l with
  | nil => rfl
  | cons p rest ih =>
    by_cases h : Entry.expired p.2 now
    · simp [cleanExpiredLoop, ih, h, List.countP_cons, List.filter_cons]
    · simp [cleanExpiredLoop, ih, h, List.countP_cons, List.filter_cons]

/-! ### Path lemmas -/

/-- Processing segments that contain no `..` only ever extends the output
stack. -/
theorem foldl_cleanPush_no_dotdot (r : Bool) (b : List String) (hb : ".." ∉ b) :
    ∀ out, ∃ c, b.foldl (cleanPush r) out = c ++ out := by
  induction b with
  | nil => intro out; exact ⟨[], rfl⟩
  | cons s rest ih =>
    intro out
    have hs : ¬ s = ".." := fun h => hb (h ▸ List.mem_cons_self s rest)
    have hrest : ".." ∉ rest := fun h => hb (List.mem_cons_of_mem s h)
    rw [List.foldl_cons]
    by_cases hdot : s = "" ∨ s = "."
    · have hstep : cleanPush r out s = out := by
        simp only [cleanPush]
        rw [if_pos hdot]
      rw [hstep]
      exact ih hrest out
    · have hstep : cleanPush r out s = s :: out := by
        simp only [cleanPush]
        rw [if_neg hdot, if_neg hs]
      rw [hstep]
      obtain ⟨c, hc⟩ := ih hrest (s :: out)
      refine ⟨c ++ [s], ?_⟩
      rw [hc, List.append_assoc]
      rfl

/-- A list is a Boolean prefix of itself extended on the right. -/
theorem isPrefixOf_append_self (l t : List String) :
    l.isPrefixOf (l ++ t) = true := by
  induction l with
  | nil => simp [List.isPrefixOf]
  | cons s rest ih => simp

/-! ### Helper lemmas about `Get` -/

/-- A key bound to an entry with the zero expiration sentinel is a hit at
any instant, with no state change. -/
theorem get_hit_of_no_expiry [DecidableEq K] [Inhabited V] (db : Database K V)
    (k : K) (v : V) (now : Time) (h : mapLookup db.data k = some ⟨v, 0⟩) :
    db.Get k now = ⟨v, true, db⟩ := by
  unfold Database.Get
  rw [h]
  simp [Time.IsZero]

/-- An unbound key is a miss, with no state change. -/
theorem get_miss_of_lookup_none [DecidableEq K] [Inhabited V]
    (db : Database K V) (k : K) (now : Time)
    (h : mapLookup db.data k = none) :
    db.Get k now = ⟨default, false, db⟩ := by
  unfold Database.Get
  rw [h]

/-- `Get` either leaves the data map alone or erases exactly the queried
key. -/
theorem get_db_data [DecidableEq K] [Inhabited V] (db : Database K V) (k : K)
    (now : Time) :
    (db.Get k now).db.data = db.data
    ∨ (db.Get k now).db.data = mapErase db.data k := by
  unfold Database.Get
  cases h : mapLookup db.data k with
  | none => exact Or.inl rfl
  | some e =>
    dsimp only
    split
    · exact Or.inl rfl
    · split
      · exact Or.inr rfl
      · exact Or.inl rfl

/-! ### Concrete states used by witnesses and counterexamples -/

/-- A concrete base directory, as in the repository's examples. -/
def demoBase : GoPath := ⟨false, ["data"]⟩

/-- A concrete persistence filename. -/
def demoFile : GoPath := ⟨false, ["test.gob"]⟩

/-- A concrete temporary-file name of the `.db-*.gob.tmp` shape. -/
def demoTmp : GoPath := ⟨false, ["data", ".db-123.gob.tmp"]⟩

/-- A concrete store with one never-expiring entry and one entry expiring
at instant 10. -/
def demoDb : Database Nat Nat := ⟨[(1, ⟨5, 0⟩), (2, ⟨6, 10⟩)], 0, demoBase⟩

/-! ### Claim theorems -/

/-- Claim C4: `Get(k)` returns `(v, true)` exactly when `k` is bound to an
unexpired entry with value `v`; otherwise it returns the zero value and
`false`, and when the binding is expired the call deletes it from the map
as a side effect.  (An entry is expired when its expiration is set and
strictly before `now`, which is the code's test in both the delete branch
of `Get` and in `CleanExpired`.) -/
theorem get_matches_lazy_expiration_spec [DecidableEq K] [Inhabited V]
    (db : Database K V) (key : K) (now : Time) :
    db.Get key now =
      match mapLookup db.data key with
      | none => ⟨default, false, db⟩
      | some e =>
        if Entry.expired e now then
          ⟨default, false, { db with data := mapErase db.data key }⟩
        else ⟨e.Value, true, db⟩ := by
  unfold Database.Get
  cases h : mapLookup db.data key with
  | none => rfl
  | some e =>
    dsimp only
    by_cases hz : e.ExpiresAt = 0
    · simp [Entry.expired, Time.IsZero, hz]
    · have hz2 : (e.ExpiresAt == 0) = false := by simp [hz]
      by_cases hlt : now < e.ExpiresAt
      · have hnot : ¬ e.ExpiresAt < now := Nat.lt_asymm hlt
        simp [Entry.expired, Time.IsZero, Time.Before, Time.After, hz2, hlt, hnot]
      · by_cases hgt : e.ExpiresAt < now
        · simp [Entry.expired, Time.IsZero, Time.Before, Time.After, hz2, hlt, hgt]
        · simp [Entry.expired, Time.IsZero, Time.Before, Time.After, hz2, hlt, hgt]

/-- Claim C7: an entry whose expiration is the unset sentinel is never
removed by expiration logic — it survives any `Get` (on any key, at any
instant) and any `CleanExpired`, unchanged. -/
theorem unset_expiration_never_removed [DecidableEq K] [Inhabited V]
    (db : Database K V) (k : K) (e : Entry V) (hwf : wfKeys db.data)
    (h : mapLookup db.data k = some e) (hz : e.ExpiresAt = 0) :
    (∀ k2 now, mapLookup ((db.Get k2 now).db).data k = some e)
  ∧ (∀ now, mapLookup ((db.CleanExpired now).2).data k = some e) := by
  have he : e = ⟨e.Value, 0⟩ := by
    cases e
    simp_all
  constructor
  · intro k2 now
    by_cases hk : k2 = k
    · subst hk
      rw [get_hit_of_no_expiry db k2 e.Value now (by rw [h, he])]
      exact h
    · rcases get_db_data db k2 now with hd | hd
      · rw [hd]
        exact h
      · rw [hd, mapLookup_erase, if_neg (fun hh => hk hh.symm)]
        exact h
  · intro now
    show mapLookup (cleanExpiredLoop now db.data).2 k = some e
    rw [cleanExpiredLoop_eq]
    dsimp only
    rw [mapLookup_filter db.data _ k hwf, h]
    have hx : Entry.expired e now = false := by
      simp [Entry.expired, Time.IsZero, hz]
    simp [hx]

/-- Claim C7 witness: in the concrete store, the never-expiring entry for
key 1 survives a `Get` of the (expired) key 2 at instant 50 and a
`CleanExpired` at instant 50. -/
theorem unset_expiration_never_removed_witness :
    mapLookup ((demoDb.Get 2 50).db).data 1 = some ⟨5, 0⟩
  ∧ mapLookup ((demoDb.CleanExpired 50).2).data 1 = some ⟨5, 0⟩ :=
  ⟨(unset_expiration_never_removed demoDb 1 ⟨5, 0⟩ (by decide) (by decide)
      rfl).1 2 50,
   (unset_expiration_never_removed demoDb 1 ⟨5, 0⟩ (by decide) (by decide)
      rfl).2 50⟩

/-- Claim C8: `CleanExpired` removes exactly the entries whose expiration is
set and strictly past the call instant, returns exactly the number of
entries removed, leaves every other binding unchanged, and afterwards no
removed key is retrievable by `Get`. -/
theorem cleanExpired_spec [DecidableEq K] [Inhabited V] (db : Database K V)
    (now : Time) (hwf : wfKeys db.data) :
    ((db.CleanExpired now).1
        = db.data.countP (fun p => Entry.expired p.2 now))
  ∧ (∀ k e, mapLookup db.data k = some e →
      mapLookup ((db.CleanExpired now).2).data k =
        if Entry.expired e now then none else some e)
  ∧ (∀ k, mapLookup db.data k = none →
      mapLookup ((db.CleanExpired now).2).data k = none)
  ∧ (∀ k e, mapLookup db.data k = some e → Entry.expired e now = true →
      ((db.CleanExpired now).2.Get k now).found = false
      ∧ ((db.CleanExpired now).2.Get k now).value = default) := by
  have hdata : ((db.CleanExpired now).2).data
      = db.data.filter (fun p => !(Entry.expired p.2 now)) := by
    show (cleanExpiredLoop now db.data).2 = _
    rw [cleanExpiredLoop_eq]
  have hcount : (db.CleanExpired now).1
      = db.data.countP (fun p => Entry.expired p.2 now) := by
    show (cleanExpiredLoop now db.data).1 = _
    rw [cleanExpiredLoop_eq]
  have hpoint : ∀ k e, mapLookup db.data k = some e →
      mapLookup ((db.CleanExpired now).2).data k =
        if Entry.expired e now then none else some e := by
    intro k e hk
    rw [hdata, mapLookup_filter db.data _ k hwf, hk]
    by_cases hx : Entry.expired e now
    · simp [hx]
    · simp [hx]
  refine ⟨hcount, hpoint, ?_, ?_⟩
  · intro k hk
    rw [hdata]
    exact mapLookup_filter_none db.data _ k hk
  · intro k e hk hx
    have hnone : mapLookup ((db.CleanExpired now).2).data k = none := by
      rw [hpoint k e hk, if_pos hx]
    rw [get_miss_of_lookup_none _ k now hnone]
    exact ⟨rfl, rfl⟩

/-- Claim C8 witness: in the concrete store at instant 50, `CleanExpired`
removes exactly the one expired entry (key 2), counts it, keeps the
never-expiring entry, and key 2 is no longer retrievable. -/
theorem cleanExpired_spec_witness :
    (demoDb.CleanExpired 50).1
      = demoDb.data.countP (fun p => Entry.expired p.2 50)
  ∧ mapLookup ((demoDb.CleanExpired 50).2).data 2 = none
  ∧ ((demoDb.CleanExpired 50).2.Get 2 50).found = false :=
  ⟨(cleanExpired_spec demoDb 50 (by decide)).1,
   by
    rw [(cleanExpired_spec demoDb 50 (by decide)).2.1 2 ⟨6, 10⟩ (by decide)]
    decide,
   ((cleanExpired_spec demoDb 50 (by decide)).2.2.2 2 ⟨6, 10⟩ (by decide)
      (by decide)).1⟩

/-- A concrete empty store with a positive default TTL (7). -/
def posTTLDb : Database Nat Nat := ⟨[], 7, demoBase⟩

/-- Claim C9: `SetWithTTL` with a non-positive ttl installs the unset
expiration sentinel on any store, regardless of the store's default TTL,
and `Set` does the same whenever the store's default TTL is non-positive;
in either case `Get` of that key is a hit with the stored value at every
later instant. -/
theorem nonpositive_ttl_never_expires [DecidableEq K] [Inhabited V]
    (db : Database K V) (k : K) (v : V) (ttl : Duration) (now later : Time)
    (h2 : ttl ≤ 0) :
    (db.defaultTTL ≤ 0 →
      mapLookup (db.Set k v now).data k = some ⟨v, 0⟩
      ∧ (db.Set k v now).Get k later = ⟨v, true, db.Set k v now⟩)
  ∧ mapLookup (db.SetWithTTL k v ttl now).data k = some ⟨v, 0⟩
  ∧ (db.SetWithTTL k v ttl now).Get k later
      = ⟨v, true, db.SetWithTTL k v ttl now⟩ := by
  have ht : ¬ ttl > 0 := not_lt.mpr h2
  have hsetT : (db.SetWithTTL k v ttl now).data = mapInsert db.data k ⟨v, 0⟩ := by
    simp [Database.SetWithTTL, ht]
  have hl2 : mapLookup (db.SetWithTTL k v ttl now).data k = some ⟨v, 0⟩ := by
    rw [hsetT, mapLookup_insert, if_pos rfl]
  refine ⟨?_, hl2, get_hit_of_no_expiry _ k v later hl2⟩
  intro h1
  have hd : ¬ db.defaultTTL > 0 := not_lt.mpr h1
  have hset : (db.Set k v now).data = mapInsert db.data k ⟨v, 0⟩ := by
    simp [Database.Set, hd]
  have hl1 : mapLookup (db.Set k v now).data k = some ⟨v, 0⟩ := by
    rw [hset, mapLookup_insert, if_pos rfl]
  exact ⟨hl1, get_hit_of_no_expiry _ k v later hl1⟩

/-- Claim C9 witness: on the store with default TTL 0, `Set 1 5` at instant
10 gives a permanent entry, and on the store whose default TTL is the
positive 7, `SetWithTTL 3 7 (-4)` still gives a permanent entry; both are
hits at the much later instant 1000000. -/
theorem nonpositive_ttl_never_expires_witness :
    mapLookup (demoDb.Set 1 5 10).data 1 = some ⟨5, 0⟩
  ∧ (demoDb.Set 1 5 10).Get 1 1000000 = ⟨5, true, demoDb.Set 1 5 10⟩
  ∧ mapLookup (posTTLDb.SetWithTTL 3 7 (-4) 10).data 3 = some ⟨7, 0⟩
  ∧ (posTTLDb.SetWithTTL 3 7 (-4) 10).Get 3 1000000
      = ⟨7, true, posTTLDb.SetWithTTL 3 7 (-4) 10⟩ := by
  have h := (nonpositive_ttl_never_expires demoDb 1 5 (-4) 10 1000000
    (by decide)).1 (by decide)
  have h2 := nonpositive_ttl_never_expires posTTLDb 3 7 (-4) 10 1000000
    (by decide)
  exact ⟨h.1, h.2, h2.2.1, h2.2.2⟩

/-- Claim C10: expiration is strict.  At the exact instant `ExpiresAt` of
an entry whose expiration is set, `Get` is a hit that does not delete the
entry, and `CleanExpired` neither removes the entry nor counts it (the
count equals the count over the map without that key). -/
theorem expiry_boundary_is_not_expired [DecidableEq K] [Inhabited V]
    (db : Database K V) (k : K) (e : Entry V) (hwf : wfKeys db.data)
    (h : mapLookup db.data k = some e) (hne : e.ExpiresAt ≠ 0) :
    db.Get k e.ExpiresAt = ⟨e.Value, true, db⟩
  ∧ mapLookup ((db.CleanExpired e.ExpiresAt).2).data k = some e
  ∧ (db.CleanExpired e.ExpiresAt).1
      = (mapErase db.data k).countP (fun p => Entry.expired p.2 e.ExpiresAt) := by
  have hz : Time.IsZero e.ExpiresAt = false := by simp [Time.IsZero, hne]
  have hb : Time.Before e.ExpiresAt e.ExpiresAt = false := by
    simp [Time.Before]
  have ha : Time.After e.ExpiresAt e.ExpiresAt = false := by
    simp [Time.After]
  have hexp : Entry.expired e e.ExpiresAt = false := by
    simp [Entry.expired, ha]
  refine ⟨?_, ?_, ?_⟩
  · unfold Database.Get
    rw [h]
    simp [hz, hb, ha]
  · show mapLookup (cleanExpiredLoop e.ExpiresAt db.data).2 k = some e
    rw [cleanExpiredLoop_eq]
    dsimp only
    rw [mapLookup_filter db.data _ k hwf, h]
    simp [hexp]
  · show (cleanExpiredLoop e.ExpiresAt db.data).1 = _
    rw [cleanExpiredLoop_eq]
    dsimp only
    exact countP_mapErase db.data k e _ hwf h hexp

/-- Claim C10 witness: in the concrete store, key 2 expires at instant 10;
at exactly instant 10 `Get` is a hit and `CleanExpired` removes and counts
nothing involving it. -/
theorem expiry_boundary_is_not_expired_witness :
    demoDb.Get 2 10 = ⟨6, true, demoDb⟩
  ∧ mapLookup ((demoDb.CleanExpired 10).2).data 2 = some ⟨6, 10⟩
  ∧ (demoDb.CleanExpired 10).1
      = (mapErase demoDb.data 2).countP (fun p => Entry.expired p.2 10) := by
  have h := expiry_boundary_is_not_expired demoDb 2 ⟨6, 10⟩ (by decide)
    (by decide) (by decide)
  exact ⟨h.1, h.2.1, h.2.2⟩

/-- A persisted record whose `Version` differs from the `1` the store
writes. -/
def versionTwoRecord : Persisted Nat Nat := ⟨2, 5, [(1, ⟨7, 0⟩)]⟩

/-- A filesystem holding that record at the resolved target path. -/
def versionTwoWorld : World Nat Nat :=
  [(getPath demoBase demoFile, File.record versionTwoRecord)]

/-- A fresh store over the same base directory. -/
def loadTargetDb : Database Nat Nat := NewDatabase Nat Nat 0 demoBase

/-- Claim C1 counterexample: loading a decodable record whose `Version` is
2 (not the 1 the store writes) returns no error and applies the decoded
state — the version mismatch is silently accepted, contradicting the
claim that it is treated as a decode-class error. -/
theorem load_accepts_version_mismatch :
    versionTwoRecord.Version ≠ 1
  ∧ (loadTargetDb.Load versionTwoWorld demoFile).1 = none
  ∧ (loadTargetDb.Load versionTwoWorld demoFile).2.data = [(1, ⟨7, 0⟩)]
  ∧ (loadTargetDb.Load versionTwoWorld demoFile).2.defaultTTL = 5 := by
  refine ⟨by decide, by decide, by decide, by decide⟩

/-- Claim C1 as amended: `Load` never inspects the `Version` field — every
successfully decoded record is applied without error, whatever its
`Version`, so a version mismatch is not detected. -/
theorem load_ignores_version [DecidableEq K] (db : Database K V)
    (w : World K V) (f : GoPath) (p : Persisted K V)
    (h : mapLookup w (getPath db.basePath f) = some (File.record p)) :
    (db.Load w f).1 = none
  ∧ (db.Load w f).2 = { db with data := p.Data, defaultTTL := p.DefaultTTL } := by
  unfold Database.Load
  rw [h]
  exact ⟨rfl, rfl⟩

/-- Claim C1 witness: the amended claim applied to the concrete version-2
record. -/
theorem load_ignores_version_witness :
    (loadTargetDb.Load versionTwoWorld demoFile).1 = none
  ∧ (loadTargetDb.Load versionTwoWorld demoFile).2 =
      { loadTargetDb with data := versionTwoRecord.Data,
                          defaultTTL := versionTwoRecord.DefaultTTL } :=
  load_ignores_version loadTargetDb versionTwoWorld demoFile versionTwoRecord
    (by decide)

/-- Claim C2 counterexample: with base directory `data`, the relative
filename `../escape` resolves to the path `escape`, which does not lie
under `data` — `..` segments in a filename do escape the base directory. -/
theorem getPath_dotdot_escapes_base :
    getPath ⟨false, ["data"]⟩ ⟨false, ["..", "escape"]⟩ = ⟨false, ["escape"]⟩
  ∧ underBase ⟨false, ["data"]⟩
      (getPath ⟨false, ["data"]⟩ ⟨false, ["..", "escape"]⟩) = false := by
  refine ⟨by decide, by decide⟩

/-- Claim C2 as amended: the resolved path is the cleaned join of the base
directory and the filename, and a filename none of whose segments is `..`
always resolves under the base directory; filenames containing `..`
segments, however, can resolve outside it (no containment check is
performed). -/
theorem getPath_no_dotdot_stays_under_base (base file : GoPath)
    (h : ".." ∉ file.segs) :
    underBase base (getPath base file) = true := by
  obtain ⟨c, hc⟩ := foldl_cleanPush_no_dotdot base.rooted file.segs h
      (base.segs.foldl (cleanPush base.rooted) [])
  have hseg : cleanSegs base.rooted (base.segs ++ file.segs)
      = cleanSegs base.rooted base.segs ++ c.reverse := by
    unfold cleanSegs
    rw [List.foldl_append, hc, List.reverse_append]
  have hview : underBase base (getPath base file)
      = ((base.rooted == base.rooted)
          && (cleanSegs base.rooted base.segs).isPrefixOf
              (cleanSegs base.rooted (base.segs ++ file.segs))) := rfl
  rw [hview, hseg, isPrefixOf_append_self]
  simp

/-- Claim C2 witness: a `..`-free filename stays under the base
directory. -/
theorem getPath_no_dotdot_stays_under_base_witness :
    underBase ⟨false, ["data"]⟩
      (getPath ⟨false, ["data"]⟩ ⟨false, ["sub", "test.gob"]⟩) = true :=
  getPath_no_dotdot_stays_under_base ⟨false, ["data"]⟩
    ⟨false, ["sub", "test.gob"]⟩ (by decide)

/-- Claim C3: a fault-free `Persist` followed by `Load` on a fresh store
over the same base directory succeeds and reproduces the persisted state
exactly: same bindings with the same absolute expiration instants, the
same default TTL, and identical `Get` results at every key and instant. -/
theorem persist_load_round_trip [DecidableEq K] [Inhabited V]
    (db : Database K V) (w : World K V) (f tmp : GoPath) (ttl0 : Duration) :
    (db.Persist w noFaults f tmp).1 = none
  ∧ ((NewDatabase K V ttl0 db.basePath).Load
      (db.Persist w noFaults f tmp).2.2 f).1 = none
  ∧ ((NewDatabase K V ttl0 db.basePath).Load
      (db.Persist w noFaults f tmp).2.2 f).2 = db
  ∧ ∀ k now,
      (((NewDatabase K V ttl0 db.basePath).Load
          (db.Persist w noFaults f tmp).2.2 f).2.Get k now)
        = db.Get k now := by
  have hlook : mapLookup (db.Persist w noFaults f tmp).2.2
      (getPath db.basePath f)
      = some (File.record ⟨1, db.defaultTTL, db.data⟩) := by
    show mapLookup (mapInsert (mapErase (mapInsert (mapInsert w tmp
        File.corrupt) tmp (File.record ⟨1, db.defaultTTL, db.data⟩)) tmp)
        (getPath db.basePath f) (File.record ⟨1, db.defaultTTL, db.data⟩))
        (getPath db.basePath f) = _
    rw [mapLookup_insert, if_pos rfl]
  have hload : ((NewDatabase K V ttl0 db.basePath).Load
      (db.Persist w noFaults f tmp).2.2 f) = (none, db) := by
    unfold Database.Load
    rw [show getPath (NewDatabase K V ttl0 db.basePath).basePath f
          = getPath db.basePath f from rfl]
    rw [hlook]
    rfl
  refine ⟨rfl, ?_, ?_, ?_⟩
  · rw [hload]
  · rw [hload]
  · intro k now
    rw [hload]

/-- Claim C5: `Load` is transactional over the in-memory state — on any
error (open or decode) the receiver is completely unchanged, and on
success the entry map and default TTL are wholly replaced by the decoded
record's values (no merging). -/
theorem load_transactional [DecidableEq K] (db : Database K V)
    (w : World K V) (f : GoPath) :
    (∀ err, (db.Load w f).1 = some err → (db.Load w f).2 = db)
  ∧ ((db.Load w f).1 = none →
      ∃ p, mapLookup w (getPath db.basePath f) = some (File.record p)
        ∧ (db.Load w f).2 =
            { db with data := p.Data, defaultTTL := p.DefaultTTL }) := by
  unfold Database.Load
  cases h : mapLookup w (getPath db.basePath f) with
  | none => exact ⟨fun err _ => rfl, fun hc => absurd hc (by simp)⟩
  | some file =>
    cases file with
    | corrupt => exact ⟨fun err _ => rfl, fun hc => absurd hc (by simp)⟩
    | record p =>
      exact ⟨fun err hc => absurd hc (by simp), fun _ => ⟨p, rfl, rfl⟩⟩

/-- Claim C5 witness: loading a missing file fails and leaves the store
unchanged; loading the concrete record replaces the state. -/
theorem load_transactional_witness :
    (demoDb.Load [] demoFile).2 = demoDb
  ∧ mapLookup versionTwoWorld (getPath loadTargetDb.basePath demoFile)
      = some (File.record versionTwoRecord)
  ∧ (loadTargetDb.Load versionTwoWorld demoFile).2 =
      { loadTargetDb with data := versionTwoRecord.Data,
                          defaultTTL := versionTwoRecord.DefaultTTL } := by
  refine ⟨(load_transactional demoDb [] demoFile).1 LoadErr.openFile
      (by decide), ?_⟩
  obtain ⟨p, hp, hdb⟩ :=
    (load_transactional loadTargetDb versionTwoWorld demoFile).2 (by decide)
  have hpv : p = versionTwoRecord := by
    have : some (File.record p) = some (File.record versionTwoRecord) := by
      rw [← hp]
      decide
    simpa using this
  subst hpv
  exact ⟨hp, hdb⟩

/-- Claim C6: any failure during `Persist` (directory creation, temp-file
creation, encode, close, or rename) returns an error, removes any
temporary file that was created, leaves the target file unmodified, and
leaves the receiver's in-memory state unchanged. -/
theorem persist_failure_cleanup [DecidableEq K] (db : Database K V)
    (w : World K V) (fl : Faults) (f tmp : GoPath)
    (hfresh : mapLookup w tmp = none)
    (hfail : (db.Persist w fl f tmp).1.isSome = true) :
    (db.Persist w fl f tmp).2.1 = db
  ∧ mapLookup (db.Persist w fl f tmp).2.2 (getPath db.basePath f)
      = mapLookup w (getPath db.basePath f)
  ∧ mapLookup (db.Persist w fl f tmp).2.2 tmp = none := by
  obtain ⟨d, ct, en, cl, rn⟩ := fl
  have htgt : mapLookup (mapErase w tmp) (getPath db.basePath f)
      = mapLookup w (getPath db.basePath f) := by
    rw [mapLookup_erase]
    by_cases hpt : getPath db.basePath f = tmp
    · rw [if_pos hpt, hpt, hfresh]
    · rw [if_neg hpt]
  cases d with
  | true => exact ⟨rfl, rfl, hfresh⟩
  | false =>
    cases ct with
    | true => exact ⟨rfl, rfl, hfresh⟩
    | false =>
      cases en with
      | true =>
        refine ⟨rfl, ?_, ?_⟩
        · show mapLookup (mapErase (mapInsert w tmp File.corrupt) tmp)
            (getPath db.basePath f) = _
          rw [mapErase_insert_self]
          exact htgt
        · show mapLookup (mapErase (mapInsert w tmp File.corrupt) tmp) tmp
            = none
          rw [mapErase_insert_self, mapLookup_erase_self]
      | false =>
        cases cl with
        | true =>
          refine ⟨rfl, ?_, ?_⟩
          · show mapLookup (mapErase (mapInsert (mapInsert w tmp File.corrupt)
              tmp (File.record ⟨1, db.defaultTTL, db.data⟩)) tmp)
              (getPath db.basePath f) = _
            rw [mapErase_insert_self, mapErase_insert_self]
            exact htgt
          · show mapLookup (mapErase (mapInsert (mapInsert w tmp File.corrupt)
              tmp (File.record ⟨1, db.defaultTTL, db.data⟩)) tmp) tmp = none
            rw [mapErase_insert_self, mapErase_insert_self,
              mapLookup_erase_self]
        | false =>
          cases rn with
          | true =>
            refine ⟨rfl, ?_, ?_⟩
            · show mapLookup (mapErase (mapInsert (mapInsert w tmp
                File.corrupt) tmp (File.record ⟨1, db.defaultTTL, db.data⟩))
                tmp) (getPath db.basePath f) = _
              rw [mapErase_insert_self, mapErase_insert_self]
              exact htgt
            · show mapLookup (mapErase (mapInsert (mapInsert w tmp
                File.corrupt) tmp (File.record ⟨1, db.defaultTTL, db.data⟩))
                tmp) tmp = none
              rw [mapErase_insert_self, mapErase_insert_self,
                mapLookup_erase_self]
          | false => exact Bool.noConfusion hfail

/-- Claim C6 witness: an encode failure on the concrete store leaves the
(empty) filesystem without the target and without the temporary file, and
the store unchanged. -/
theorem persist_failure_cleanup_witness :
    (demoDb.Persist [] ⟨false, false, true, false, false⟩ demoFile
      demoTmp).2.1 = demoDb
  ∧ mapLookup (demoDb.Persist [] ⟨false, false, true, false, false⟩ demoFile
      demoTmp).2.2 (getPath demoDb.basePath demoFile)
      = mapLookup ([] : World Nat Nat) (getPath demoDb.basePath demoFile)
  ∧ mapLookup (demoDb.Persist [] ⟨false, false, true, false, false⟩ demoFile
      demoTmp).2.2 demoTmp = none :=
  persist_failure_cleanup demoDb [] ⟨false, false, true, false, false⟩
    demoFile demoTmp (by decide) (by decide)

end CacheDb
